import Mathlib

/-!
Verification development for `parse_to_xml.py`: a shallow embedding of the
feed-reconciliation core (archive merge/trim, daily-digest windowing, watermark
tracking, date normalization policy) together with theorems settling the
specification's claims about it.

Modelling conventions:
* Python timezone-aware `datetime` values are modelled by `PyDT` (wall-clock
  seconds plus an optional UTC offset in seconds); Python compares aware
  datetimes by the instant they denote, which `PyDT.instant` computes.
* The parsed `<channel>` element of the archive XML is a `List Node`: header
  children (`title`/`link`/`description`, or any non-item tag) and `<item>`
  children carrying an `Item` record.
* File I/O is out of scope except where a claim is about it (persistence
  atomicity, modelled by the durable states reachable mid-write).
-/

/-- Python `datetime`: `naive` is the displayed wall-clock value in seconds
since the epoch, `tz` the `utcoffset` in seconds (`none` for a naive value).
The program constructs only aware values for every comparison it performs;
a naive value is converted with `replace(tzinfo=timezone.utc)` first, which
is why `instant` treats `tz = none` as offset `0`. -/
structure PyDT where
  naive : Int
  tz : Option Int
deriving DecidableEq

/-- The instant an aware datetime denotes (what Python's `<`, `>`, `max`
compare): wall-clock value minus UTC offset. -/
def PyDT.instant (d : PyDT) : Int := d.naive - d.tz.getD 0

/-- Python `d.astimezone(timezone(timedelta(seconds=off)))` for aware `d`:
same instant, displayed in the new offset. -/
def PyDT.astimezone (d : PyDT) (off : Int) : PyDT := ⟨d.instant + off, some off⟩

/-- Python `d - timedelta(seconds=s)`: shifts the wall clock, keeps the tzinfo,
so the instant also shifts by `s`. -/
def PyDT.subSec (d : PyDT) (s : Int) : PyDT := ⟨d.naive - s, d.tz⟩

theorem PyDT.instant_astimezone (d : PyDT) (off : Int) :
    (d.astimezone off).instant = d.instant := by
  simp [PyDT.astimezone, PyDT.instant]

theorem PyDT.instant_subSec (d : PyDT) (s : Int) :
    (d.subSec s).instant = d.instant - s := by
  cases d with
  | mk n tz =>
    cases tz with
    | none => simp [PyDT.subSec, PyDT.instant]
    | some o => simp [PyDT.subSec, PyDT.instant]; ring

/-- Source constant `MAX_ITEMS = 1000`. -/
def MAX_ITEMS : Nat := 1000

/-- Source constant `BD_OFFSET = 6` (hours; used as an `astimezone` target). -/
def BD_OFFSET : Int := 6 * 3600

/-- Source constant `LOOKBACK_HOURS = 48`. -/
def LOOKBACK_HOURS : Int := 48

/-- Source constant `LINK_RETENTION_DAYS = 7`. -/
def LINK_RETENTION_DAYS : Int := 7

/-- An `<item>` record of the archive feed, with the fields `load_existing`
extracts (title/link/description/pubDate/enclosure url). -/
structure Item where
  title : String
  link : String
  description : String
  pubDate : PyDT
  img : String
deriving DecidableEq

/-- A scraped article dict as produced by `scrape_articles`
(`{url, title, desc, pub, img}`). -/
structure Art where
  url : String
  title : String
  desc : String
  pub : PyDT
  img : String
deriving DecidableEq

/-- The code points of the characters Python `str.isspace()` accepts — the
class `str.strip()` removes: ASCII whitespace `\t`, `\n`, `\x0b`, `\x0c`,
`\r`, the information separators `\x1c`-`\x1f`, space, next line `\x85`,
no-break space `\xa0`, ogham space mark, the en-quad through hair-space
separators (8192-8202), line separator, paragraph separator, narrow
no-break space, medium mathematical space, and ideographic space. -/
def pySpaceCodes : List Nat :=
  [9, 10, 11, 12, 13, 28, 29, 30, 31, 32, 133, 160, 5760,
   8192, 8193, 8194, 8195, 8196, 8197, 8198, 8199, 8200, 8201, 8202,
   8232, 8233, 8239, 8287, 12288]

/-- Whether a character belongs to the whitespace class Python `str.strip()`
removes. -/
def isPySpace (c : Char) : Bool := c.toNat ∈ pySpaceCodes

/-- Python `s.strip()`: drop leading and trailing whitespace. -/
def pstrip (s : String) : String :=
  ⟨((s.data.dropWhile isPySpace).reverse.dropWhile isPySpace).reverse⟩

/-- A child node of the parsed `<channel>` element: a non-item element
identified by its tag, or an `<item>` element. -/
inductive Node where
  | header (tag : String)
  | item (it : Item)
deriving DecidableEq

/-- Tags the insert-position scan of `update_main_xml` (lines 266-271) steps
over: `["title", "link", "description"]`. -/
def headerTags : List String := ["title", "link", "description"]

/-- Projection used to model `channel.findall("item")`. -/
def Node.toItem : Node → Option Item
  | .header _ => none
  | .item it => some it

/-- Whether a channel child is an `<item>` element. -/
def Node.isItem : Node → Bool
  | .header _ => false
  | .item _ => true

/-- Model of `channel.findall("item")`: the item records in document order. -/
def channelItems (ch : List Node) : List Item := ch.filterMap Node.toItem

/-- Model of lines 266-271 of `update_main_xml`: walk the channel children,
counting while the tag is `title`/`link`/`description`, stopping at the first
other child; new items are inserted at this position. -/
def insertPos : List Node → Nat
  | [] => 0
  | .item _ :: _ => 0
  | .header t :: rest => if t ∈ headerTags then insertPos rest + 1 else 0

/-- Model of lines 238-243 of `update_main_xml`: the dedup set is built from
the *stripped* link text of every existing item (`link_tag.text.strip()`). -/
def existingLinks (ch : List Node) : List String :=
  (channelItems ch).map (fun it => pstrip it.link)

/-- The `<item>` element built from a scraped article (lines 252-259). -/
def Art.toItem (a : Art) : Item := ⟨a.title, a.url, a.desc, a.pub, a.img⟩

/-- Model of the dedup loop of lines 245-263: keep each article whose *raw*
`url` is not in the dedup set, adding the raw url to the set as it goes
(`existing.add(art["url"])`), so intra-batch duplicates are dropped too. -/
def selectNewArts (existing : List String) : List Art → List Art
  | [] => []
  | a :: rest =>
    if a.url ∈ existing then selectNewArts existing rest
    else a :: selectNewArts (a.url :: existing) rest

/-- Model of lines 245-274 of `update_main_xml`: build the new unique items
and splice them, in scrape order, at `insertPos`. -/
def insertNew (ch : List Node) (arts : List Art) : List Node :=
  ch.take (insertPos ch)
    ++ (selectNewArts (existingLinks ch) arts).map (fun a => Node.item a.toItem)
    ++ ch.drop (insertPos ch)

/-- Helper for the trim step: remove the first `k` item children of the
channel (`for old_item in all_items[:-MAX_ITEMS]: channel.remove(old_item)`),
leaving non-item children in place. -/
def removeFirstItems : Nat → List Node → List Node
  | 0, ch => ch
  | _ + 1, [] => []
  | k + 1, .item _ :: rest => removeFirstItems k rest
  | k + 1, .header t :: rest => .header t :: removeFirstItems (k + 1) rest

/-- Model of lines 278-284 of `update_main_xml`: when the item count exceeds
`MAX_ITEMS`, the code removes `all_items[:-MAX_ITEMS]` — the *first*
`count - MAX_ITEMS` items of the channel, keeping the last `MAX_ITEMS`. -/
def trimChannel (ch : List Node) : List Node :=
  if MAX_ITEMS < (channelItems ch).length then
    removeFirstItems ((channelItems ch).length - MAX_ITEMS) ch
  else ch

/-- The merge+trim cycle of `update_main_xml` on a parsed channel: dedup and
insert the scraped batch, then trim. (Loading, serialization and the printing
are outside the reconciliation core.) -/
def update_main_xml (ch : List Node) (arts : List Art) : List Node :=
  trimChannel (insertNew ch arts)

/-! Basic lemmas about the channel model. -/

theorem channelItems_nil : channelItems [] = [] := rfl

theorem channelItems_append (l₁ l₂ : List Node) :
    channelItems (l₁ ++ l₂) = channelItems l₁ ++ channelItems l₂ := by
  simp [channelItems, List.filterMap_append]

theorem channelItems_map_item (its : List Item) :
    channelItems (its.map Node.item) = its := by
  induction its with
  | nil => rfl
  | cons h t ih => simp [channelItems, List.filterMap_cons, Node.toItem] at ih ⊢; exact ih

theorem channelItems_header_cons (t : String) (rest : List Node) :
    channelItems (Node.header t :: rest) = channelItems rest := by
  simp [channelItems, List.filterMap_cons, Node.toItem]

theorem channelItems_item_cons (it : Item) (rest : List Node) :
    channelItems (Node.item it :: rest) = it :: channelItems rest := by
  simp [channelItems, List.filterMap_cons, Node.toItem]

/-- Every channel child strictly before the insert position is a non-item
(header) child. -/
theorem isItem_false_of_mem_take_insertPos :
    ∀ ch : List Node, ∀ n ∈ ch.take (insertPos ch), n.isItem = false := by
  intro ch
  induction ch with
  | nil => simp
  | cons hd rest ih =>
    cases hd with
    | item it => simp [insertPos]
    | header t =>
      intro n hn
      by_cases htag : t ∈ headerTags
      · simp [insertPos, htag, List.take_succ_cons] at hn
        rcases hn with h | h
        · subst h; rfl
        · exact ih n h
      · simp [insertPos, htag] at hn

/-- A list of header-only channel children contributes no items. -/
theorem channelItems_eq_nil_of_headers :
    ∀ l : List Node, (∀ n ∈ l, n.isItem = false) → channelItems l = [] := by
  intro l
  induction l with
  | nil => intro _; rfl
  | cons hd rest ih =>
    intro h
    cases hd with
    | item it => exact absurd (h _ (List.mem_cons_self _ _)) (by simp [Node.isItem])
    | header t =>
      rw [channelItems_header_cons]
      exact ih fun n hn => h n (List.mem_cons_of_mem _ hn)

/-- `removeFirstItems` passes over a header-only prefix unchanged. -/
theorem removeFirstItems_headers_append (k : Nat) :
    ∀ (H rest : List Node), (∀ n ∈ H, n.isItem = false) →
      removeFirstItems k (H ++ rest) = H ++ removeFirstItems k rest := by
  intro H
  induction H with
  | nil => intro rest _; rfl
  | cons hd tl ih =>
    intro rest h
    cases hd with
    | item it => exact absurd (h _ (List.mem_cons_self _ _)) (by simp [Node.isItem])
    | header t =>
      cases k with
      | zero => simp [removeFirstItems]
      | succ k' =>
        have := ih rest fun n hn => h n (List.mem_cons_of_mem _ hn)
        simp only [List.cons_append, removeFirstItems]
        exact congrArg (List.cons (Node.header t)) this

/-- Removing `k` items from a channel removes exactly the first `k` of its
item records. -/
theorem channelItems_removeFirstItems :
    ∀ (k : Nat) (ch : List Node),
      channelItems (removeFirstItems k ch) = (channelItems ch).drop k := by
  intro k
  induction k with
  | zero => intro ch; simp [removeFirstItems]
  | succ k' ihk =>
    intro ch
    induction ch with
    | nil => simp [removeFirstItems, channelItems]
    | cons hd rest ihc =>
      cases hd with
      | item it =>
        simp only [removeFirstItems, channelItems_item_cons, List.drop_succ_cons]
        exact ihk rest
      | header t =>
        simp only [removeFirstItems, channelItems_header_cons]
        exact ihc

/-- Removing exactly the length of a leading block of items consumes that
block and nothing more. -/
theorem removeFirstItems_item_block :
    ∀ (its : List Item) (rest : List Node) (k : Nat), its.length ≤ k →
      removeFirstItems k (its.map Node.item ++ rest) =
        removeFirstItems (k - its.length) rest := by
  intro its
  induction its with
  | nil => intro rest k _; simp
  | cons h t ih =>
    intro rest k hk
    cases k with
    | zero => simp at hk
    | succ k' =>
      show removeFirstItems k' (List.map Node.item t ++ rest) =
        removeFirstItems (k' + 1 - (h :: t).length) rest
      rw [ih rest k' (by simpa using hk)]
      congr 1
      simp

/-- Special case: removing exactly a leading item block leaves the rest. -/
theorem removeFirstItems_item_block_exact (its : List Item) (rest : List Node) :
    removeFirstItems its.length (its.map Node.item ++ rest) = rest := by
  rw [removeFirstItems_item_block its rest its.length le_rfl]
  simp [removeFirstItems]

/-- When the channel is a bare list of items (no headers), insertion happens
at the very front. -/
theorem insertPos_map_item (its : List Item) :
    insertPos (its.map Node.item) = 0 := by
  cases its <;> rfl

/-! The selection loop of the archive merge. -/

theorem selectNewArts_sublist (existing : List String) (arts : List Art) :
    ∀ a ∈ selectNewArts existing arts, a ∈ arts := by
  induction arts generalizing existing with
  | nil => simp [selectNewArts]
  | cons hd tl ih =>
    intro a ha
    by_cases hmem : hd.url ∈ existing
    · simp only [selectNewArts, if_pos hmem] at ha
      exact List.mem_cons_of_mem _ (ih existing a ha)
    · simp only [selectNewArts, if_neg hmem, List.mem_cons] at ha
      rcases ha with h | h
      · exact h ▸ List.mem_cons_self _ _
      · exact List.mem_cons_of_mem _ (ih _ a h)

/-- Every article url of the batch ends up covered: it was already in the
dedup set, or it is the url of a selected article. -/
theorem selectNewArts_url_cover (existing : List String) (arts : List Art) :
    ∀ a ∈ arts, a.url ∈ existing ∨ a.url ∈ (selectNewArts existing arts).map Art.url := by
  induction arts generalizing existing with
  | nil => simp
  | cons hd tl ih =>
    intro a ha
    by_cases hmem : hd.url ∈ existing
    · simp only [selectNewArts, if_pos hmem]
      rcases List.mem_cons.1 ha with h | h
      · exact Or.inl (h ▸ hmem)
      · exact ih existing a h
    · simp only [selectNewArts, if_neg hmem, List.map_cons]
      rcases List.mem_cons.1 ha with h | h
      · exact Or.inr (h ▸ List.mem_cons_self _ _)
      · rcases ih (hd.url :: existing) a h with h' | h'
        · rcases List.mem_cons.1 h' with h'' | h''
          · exact Or.inr (h'' ▸ List.mem_cons_self _ _)
          · exact Or.inl h''
        · exact Or.inr (List.mem_cons_of_mem _ h')

/-- If every batch url is already in the dedup set, nothing is selected. -/
theorem selectNewArts_eq_nil (existing : List String) (arts : List Art)
    (h : ∀ a ∈ arts, a.url ∈ existing) : selectNewArts existing arts = [] := by
  induction arts with
  | nil => rfl
  | cons hd tl ih =>
    have hhd : hd.url ∈ existing := h hd (List.mem_cons_self _ _)
    simp only [selectNewArts, if_pos hhd]
    exact ih fun a ha => h a (List.mem_cons_of_mem _ ha)

/-! The trim-direction analysis (claims C1 and C4).

The code removes `all_items[:-MAX_ITEMS]`: the items at the *head* of the
channel, which — since the merge prepends new items — are the most recently
inserted ones.  At capacity, a merge+trim cycle therefore deletes exactly the
articles it just inserted and keeps the old ones. -/

/-- On any channel holding exactly `MAX_ITEMS` items, a merge+trim cycle is
the identity: whatever the dedup step inserts at the insert position, the
trim step removes that many items from the front again, and only header
children precede the insert position, so exactly the inserted items go. -/
theorem update_main_xml_at_capacity (ch : List Node) (arts : List Art)
    (hlen : (channelItems ch).length = MAX_ITEMS) :
    update_main_xml ch arts = ch := by
  set S := selectNewArts (existingLinks ch) arts with hS
  have hH : ∀ n ∈ ch.take (insertPos ch), n.isItem = false :=
    isItem_false_of_mem_take_insertPos ch
  have hHnil : channelItems (ch.take (insertPos ch)) = [] :=
    channelItems_eq_nil_of_headers _ hH
  have hsplit : ch.take (insertPos ch) ++ ch.drop (insertPos ch) = ch :=
    List.take_append_drop _ _
  have hchD : channelItems (ch.drop (insertPos ch)) = channelItems ch := by
    conv_rhs => rw [← hsplit]
    rw [channelItems_append, hHnil, List.nil_append]
  have hmaps : S.map (fun a => Node.item a.toItem) = (S.map Art.toItem).map Node.item := by
    simp [List.map_map]
  have hins : insertNew ch arts =
      ch.take (insertPos ch) ++ S.map (fun a => Node.item a.toItem)
        ++ ch.drop (insertPos ch) := rfl
  have hitems : channelItems (insertNew ch arts) = S.map Art.toItem ++ channelItems ch := by
    rw [hins, channelItems_append, channelItems_append, hHnil, List.nil_append, hmaps,
      channelItems_map_item, hchD]
  rw [update_main_xml, trimChannel, hitems, hins]
  by_cases hs : S = []
  · rw [hs]
    simp only [List.map_nil, List.nil_append, List.append_nil]
    rw [hlen, if_neg (lt_irrefl _)]
    exact hsplit
  · have hslen : 0 < S.length := List.length_pos.2 hs
    have hcond : MAX_ITEMS < (S.map Art.toItem ++ channelItems ch).length := by
      simp only [List.length_append, List.length_map, hlen]
      omega
    rw [if_pos hcond]
    have hk : (S.map Art.toItem ++ channelItems ch).length - MAX_ITEMS
        = (S.map Art.toItem).length := by
      simp only [List.length_append, List.length_map, hlen]
      omega
    rw [hk, hmaps, List.append_assoc,
      removeFirstItems_headers_append _ _ _ hH,
      removeFirstItems_item_block_exact]
    exact hsplit

/-- A concrete pre-existing archive item. -/
def oldItem : Item :=
  ⟨"old title", "http://example.test/old", "old desc", ⟨0, some 0⟩, ""⟩

/-- A concrete archive channel at exactly `MAX_ITEMS` items. -/
def archiveFull : List Node := (List.replicate MAX_ITEMS oldItem).map Node.item

/-- A scraped article whose link is not in `archiveFull`. -/
def freshArt : Art :=
  ⟨"http://example.test/new1", "new title 1", "", ⟨100, some 0⟩, ""⟩

/-- A second scraped article, link also fresh and distinct from `freshArt`. -/
def freshArt2 : Art :=
  ⟨"http://example.test/new2", "new title 2", "", ⟨200, some 0⟩, ""⟩

/-- Claim C1 (code_bug): the claim says the trim step after a merge removes
exactly the oldest (tail, least-recently-inserted) records, keeping every
more-recently-inserted record.  The code does the opposite: on an archive at
capacity `MAX_ITEMS`, merging a fresh article prepends it and the trim then
removes it — the *most recently inserted* record — leaving the `MAX_ITEMS`
old records (including the tail) in place, so the resulting archive equals
the old archive and does not contain the new article at all. -/
theorem trim_drops_newest_keeps_oldest :
    update_main_xml archiveFull [freshArt] = archiveFull ∧
    Node.item freshArt.toItem ∉ update_main_xml archiveFull [freshArt] ∧
    Node.item oldItem ∈ update_main_xml archiveFull [freshArt] := by
  have h1 : update_main_xml archiveFull [freshArt] = archiveFull :=
    update_main_xml_at_capacity archiveFull [freshArt]
      (by rw [archiveFull, channelItems_map_item]; exact List.length_replicate _ _)
  refine ⟨h1, ?_, ?_⟩
  · rw [h1]
    simp only [archiveFull, List.map_replicate, List.mem_replicate]
    intro h
    exact absurd h.2 (by decide)
  · rw [h1, archiveFull, List.map_replicate, List.mem_replicate]
    exact ⟨by decide, rfl⟩

/-- Claim C4 (code_bug): the insert step itself does put the batch at the
front, immediately after the leading headers, in scrape order (first
conjunct, the claim's order-preservation reading of lines 245-274); but the
claim also asserts the merged archive keeps those articles after trimming,
while at capacity the trim removes exactly the new articles, so the final
archive equals the prior one and the first scraped article is not at the
front (remaining conjuncts). -/
theorem merge_order_then_trim_loss :
    insertNew archiveFull [freshArt, freshArt2] =
      Node.item freshArt.toItem :: Node.item freshArt2.toItem :: archiveFull ∧
    update_main_xml archiveFull [freshArt, freshArt2] = archiveFull ∧
    Node.item freshArt.toItem ∉ update_main_xml archiveFull [freshArt, freshArt2] := by
  have h2 : update_main_xml archiveFull [freshArt, freshArt2] = archiveFull :=
    update_main_xml_at_capacity archiveFull [freshArt, freshArt2]
      (by rw [archiveFull, channelItems_map_item]; exact List.length_replicate _ _)
  refine ⟨?_, h2, ?_⟩
  · have hpos : insertPos archiveFull = 0 := insertPos_map_item _
    have hex : existingLinks archiveFull =
        List.replicate MAX_ITEMS (pstrip oldItem.link) := by
      rw [existingLinks, archiveFull, channelItems_map_item, List.map_replicate]
    have hsel : selectNewArts (existingLinks archiveFull) [freshArt, freshArt2] =
        [freshArt, freshArt2] := by
      rw [hex]
      simp only [selectNewArts]
      rw [if_neg (by simp [List.mem_replicate]; decide),
        if_neg (by simp [List.mem_replicate, List.mem_cons]; decide)]
    simp [insertNew, hpos, hsel]
  · rw [h2]
    simp only [archiveFull, List.map_replicate, List.mem_replicate]
    intro h
    exact absurd h.2 (by decide)

/-! Idempotence of the archive merge (claim C3).

The dedup set is built from *stripped* stored link text but compared against
*raw* scraped urls, so idempotence holds exactly for batches whose urls are
strip-invariant; a url with surrounding whitespace is re-inserted on a second
merge. -/

/-- Pointwise-equal functions map a list equally (restricted congruence). -/
theorem map_congr_mem {α β : Type} (l : List α) (f g : α → β)
    (h : ∀ a ∈ l, f a = g a) : l.map f = l.map g := by
  induction l with
  | nil => rfl
  | cons hd tl ih =>
    simp only [List.map_cons]
    rw [h hd (List.mem_cons_self _ _), ih fun a ha => h a (List.mem_cons_of_mem _ ha)]

/-- Claim C3 amended: merging the same scraped batch into the archive twice
yields the same channel as merging it once, for batches whose urls carry no
leading/trailing whitespace (so that the raw scraped url coincides with the
stripped stored link text the dedup set holds).  Covers the trim interaction
too: if the first cycle trimmed, the channel is at capacity and the second
cycle is the identity by `update_main_xml_at_capacity`. -/
theorem merge_idempotent_of_stripped (ch : List Node) (arts : List Art)
    (h : ∀ a ∈ arts, pstrip a.url = a.url) :
    update_main_xml (update_main_xml ch arts) arts = update_main_xml ch arts := by
  set S := selectNewArts (existingLinks ch) arts with hS
  have hH : ∀ n ∈ ch.take (insertPos ch), n.isItem = false :=
    isItem_false_of_mem_take_insertPos ch
  have hHnil : channelItems (ch.take (insertPos ch)) = [] :=
    channelItems_eq_nil_of_headers _ hH
  have hsplit : ch.take (insertPos ch) ++ ch.drop (insertPos ch) = ch :=
    List.take_append_drop _ _
  have hchD : channelItems (ch.drop (insertPos ch)) = channelItems ch := by
    conv_rhs => rw [← hsplit]
    rw [channelItems_append, hHnil, List.nil_append]
  have hmaps : S.map (fun a => Node.item a.toItem) = (S.map Art.toItem).map Node.item := by
    simp [List.map_map]
  have hins : insertNew ch arts =
      ch.take (insertPos ch) ++ S.map (fun a => Node.item a.toItem)
        ++ ch.drop (insertPos ch) := rfl
  have hitems : channelItems (insertNew ch arts) = S.map Art.toItem ++ channelItems ch := by
    rw [hins, channelItems_append, channelItems_append, hHnil, List.nil_append, hmaps,
      channelItems_map_item, hchD]
  by_cases hcap : MAX_ITEMS < S.length + (channelItems ch).length
  · -- The first cycle trims down to exactly MAX_ITEMS items.
    have hch1 : update_main_xml ch arts =
        removeFirstItems ((S.map Art.toItem ++ channelItems ch).length - MAX_ITEMS)
          (insertNew ch arts) := by
      rw [update_main_xml, trimChannel, hitems,
        if_pos (by simp only [List.length_append, List.length_map]; exact hcap)]
    have hlen1 : (channelItems (update_main_xml ch arts)).length = MAX_ITEMS := by
      rw [hch1, channelItems_removeFirstItems, hitems, List.length_drop]
      simp only [List.length_append, List.length_map]
      omega
    exact update_main_xml_at_capacity _ arts hlen1
  · -- No trim in the first cycle: every batch url is now covered by the
    -- stored links, so the second dedup selects nothing.
    have hch1 : update_main_xml ch arts = insertNew ch arts := by
      rw [update_main_xml, trimChannel, hitems,
        if_neg (by simp only [List.length_append, List.length_map]; exact hcap)]
    have hE1 : existingLinks (update_main_xml ch arts) =
        S.map Art.url ++ existingLinks ch := by
      rw [existingLinks, hch1, hitems, List.map_append, List.map_map]
      congr 1
      exact map_congr_mem S _ _
        (fun a ha => h a (selectNewArts_sublist _ _ a (hS ▸ ha)))
    have hcov : ∀ a ∈ arts, a.url ∈ existingLinks (update_main_xml ch arts) := by
      intro a ha
      rw [hE1]
      rcases selectNewArts_url_cover (existingLinks ch) arts a ha with hc | hc
      · exact List.mem_append_right _ hc
      · exact List.mem_append_left _ (hS ▸ hc)
    have hS2 : selectNewArts (existingLinks (update_main_xml ch arts)) arts = [] :=
      selectNewArts_eq_nil _ _ hcov
    have hins2 : insertNew (update_main_xml ch arts) arts = update_main_xml ch arts := by
      rw [insertNew, hS2]
      simp only [List.map_nil, List.append_nil]
      exact List.take_append_drop _ _
    have hlen1 : ¬ MAX_ITEMS < (channelItems (update_main_xml ch arts)).length := by
      rw [hch1, hitems]
      simp only [List.length_append, List.length_map]
      exact hcap
    rw [update_main_xml, trimChannel, hins2, if_neg hlen1]

/-- The header children `update_main_xml` creates on a fresh/empty channel. -/
def freshChannelHeaders : List Node :=
  [Node.header "title", Node.header "link", Node.header "description"]

/-- An article whose scraped url carries a leading space. -/
def wsArt : Art := ⟨" x", "ws title", "", ⟨0, some 0⟩, ""⟩

/-- Claim C3 counterexample: for the batch `[wsArt]`, whose url `" x"` has a
leading space, the second merge does *not* deduplicate against the first: the
stored link text is stripped to `"x"` when the dedup set is rebuilt, the raw
url `" x"` misses it, and the article is inserted a second time, so merging
twice differs from merging once. -/
theorem merge_twice_ne_merge_once :
    update_main_xml (update_main_xml freshChannelHeaders [wsArt]) [wsArt] ≠
      update_main_xml freshChannelHeaders [wsArt] := by decide

/-- An article whose scraped url carries a leading no-break space (U+00A0),
which Python `str.strip()` also removes. -/
def nbspArt : Art := ⟨"\u00A0x", "nbsp title", "", ⟨0, some 0⟩, ""⟩

/-- A url with a leading U+00A0 is not strip-invariant in this model
(matching Python, whose `str.strip()` removes the no-break space), and the
program indeed re-inserts such an article on a second merge: it lies outside
the amended idempotence hypothesis, not inside it. -/
theorem nbsp_link_reinserted :
    pstrip nbspArt.url ≠ nbspArt.url ∧
    update_main_xml (update_main_xml freshChannelHeaders [nbspArt]) [nbspArt] ≠
      update_main_xml freshChannelHeaders [nbspArt] := by decide

/-- A strip-invariant article used as the idempotence witness input. -/
def cleanArt : Art :=
  ⟨"http://example.test/clean", "clean title", "", ⟨0, some 0⟩, ""⟩

/-- Witness for `merge_idempotent_of_stripped` at a concrete channel and
batch with a strip-invariant url. -/
theorem merge_idempotent_witness :
    update_main_xml (update_main_xml freshChannelHeaders [cleanArt]) [cleanArt] =
      update_main_xml freshChannelHeaders [cleanArt] :=
  merge_idempotent_of_stripped freshChannelHeaders [cleanArt] (by decide)


/-! The daily digest (`update_daily`) and watermark tracking. -/

/-- Watermark state as loaded by `load_last_seen`: optional last-seen
timestamp and the processed-links set. -/
structure Watermark where
  last_seen : Option PyDT
  processed : List String
deriving DecidableEq

/-- The include-condition of line 321, a single Python boolean:
`not lookback_dt or pub > lookback_dt`, where `pub` is the pubDate converted
with `astimezone` to the display zone. -/
def passCheck (off : Int) (lookback : Option PyDT) (it : Item) : Bool :=
  match lookback with
  | none => true
  | some lb => decide (lb.instant < (it.pubDate.astimezone off).instant)

/-- Model of the selection loop of `update_daily` (lines 314-323): one pass
over the archive items; skip links already in the processed set; include a
record when the lookback condition passes, adding its link to the set as it
goes.  Returns the selected records in archive order and the final processed
set. -/
def selectAux (off : Int) (lookback : Option PyDT) :
    List String → List Item → List Item × List String
  | pl, [] => ([], pl)
  | pl, it :: rest =>
    if it.link ∈ pl then selectAux off lookback pl rest
    else if passCheck off lookback it then
      let r := selectAux off lookback (it.link :: pl) rest
      (it :: r.1, r.2)
    else selectAux off lookback pl rest

/-- The lookback cutoff of lines 306-309:
`last_seen - timedelta(hours=LOOKBACK_HOURS)` when a last-seen timestamp
exists, else no cutoff. -/
def lookbackOf (wm : Watermark) : Option PyDT :=
  wm.last_seen.map (fun d => d.subSec (LOOKBACK_HOURS * 3600))

/-- The "new since last run" computation of `update_daily`, lines 302-323. -/
def selectNew (off : Int) (wm : Watermark) (master : List Item) :
    List Item × List String :=
  selectAux off (lookbackOf wm) wm.processed master

/-- Model of `save_last_seen` (lines 136-149): the persisted watermark keeps
`last_dt`, and prunes the processed set to those links borne by an archive
item whose pubDate is strictly after
`last_dt - timedelta(days=LINK_RETENTION_DAYS)`. -/
def save_last_seen (last_dt : PyDT) (processed_links : List String)
    (master_items : List Item) : Watermark :=
  ⟨some last_dt,
   processed_links.filter (fun l => master_items.any (fun it =>
     it.link == l && decide ((last_dt.subSec (LINK_RETENTION_DAYS * 86400)).instant
       < it.pubDate.instant)))⟩

/-- Python `max` over a datetime list with accumulator: keep the candidate
unless the next element is strictly greater (ties keep the earlier element,
as Python's `max` does). -/
def pyMaxDT (acc : PyDT) : List PyDT → PyDT
  | [] => acc
  | d :: ds => pyMaxDT (if acc.instant < d.instant then d else acc) ds

/-- The placeholder record emitted when no new articles exist
(lines 326-332): a synthetic record with `publishedAt = now`. -/
def placeholderItem (now : PyDT) : Item :=
  ⟨"No new articles today", "https://www.newagebd.net",
   "Daily feed will populate after first articles appear.", now, ""⟩

/-- Model of `new_items.sort(key=lambda x: x["pubDate"], reverse=True)`:
sort by pubDate descending. -/
def sortDesc (l : List Item) : List Item :=
  l.mergeSort (fun a b => decide (b.pubDate.instant ≤ a.pubDate.instant))

/-- The outputs of one `update_daily` run: the primary feed, the overflow
feed, and the watermark persisted through `save_last_seen`. -/
structure DailyOut where
  primary : List Item
  secondary : List Item
  saved : Watermark
deriving DecidableEq

/-- Model of `update_daily` (lines 297-359): select the new records; if none,
emit the placeholder as primary, an empty overflow, and advance the watermark
to `now`; otherwise sort descending, split at 100 (`new_items[:100]` /
`new_items[100:]`), and advance the watermark to the maximum pubDate of the
new records (Python's `max` iterates the already-sorted list). -/
def update_daily (off : Int) (now : PyDT) (wm : Watermark) (master : List Item) :
    DailyOut :=
  match selectNew off wm master with
  | ([], pl) => ⟨[placeholderItem now], [], save_last_seen now pl master⟩
  | (n0 :: rest, pl) =>
    let sorted := sortDesc (n0 :: rest)
    let last_dt := pyMaxDT (sorted.headD n0).pubDate (sorted.tail.map Item.pubDate)
    ⟨sorted.take 100, sorted.drop 100, save_last_seen last_dt pl master⟩

/-! Lemmas about the selection pass. -/

/-- The lookback test, restated on the original (UTC) pubDate. -/
def passLookback (lookback : Option PyDT) (it : Item) : Prop :=
  match lookback with
  | none => True
  | some lb => lb.instant < it.pubDate.instant

theorem passCheck_iff (off : Int) (lookback : Option PyDT) (it : Item) :
    passCheck off lookback it = true ↔ passLookback lookback it := by
  cases lookback with
  | none => simp [passCheck, passLookback]
  | some lb => simp [passCheck, passLookback, PyDT.instant_astimezone]

theorem passCheck_offset_eq (o1 o2 : Int) (lookback : Option PyDT) (it : Item) :
    passCheck o1 lookback it = passCheck o2 lookback it := by
  cases lookback with
  | none => rfl
  | some lb => simp [passCheck, PyDT.instant_astimezone]

theorem selectAux_offset_eq (o1 o2 : Int) (lookback : Option PyDT) :
    ∀ (master : List Item) (pl : List String),
      selectAux o1 lookback pl master = selectAux o2 lookback pl master := by
  intro master
  induction master with
  | nil => intro pl; rfl
  | cons it rest ih =>
    intro pl
    simp only [selectAux, passCheck_offset_eq o1 o2 lookback it]
    by_cases hmem : it.link ∈ pl
    · rw [if_pos hmem, if_pos hmem]
      exact ih pl
    · rw [if_neg hmem, if_neg hmem]
      by_cases hpass : passCheck o2 lookback it = true
      · rw [if_pos hpass, if_pos hpass, ih]
      · rw [if_neg hpass, if_neg hpass]
        exact ih pl

theorem selectAux_fst_subset (off : Int) (lookback : Option PyDT) :
    ∀ (master : List Item) (pl : List String) (it : Item),
      it ∈ (selectAux off lookback pl master).1 → it ∈ master := by
  intro master
  induction master with
  | nil => intro pl it h; simp [selectAux] at h
  | cons hd rest ih =>
    intro pl it h
    simp only [selectAux] at h
    by_cases hmem : hd.link ∈ pl
    · rw [if_pos hmem] at h
      exact List.mem_cons_of_mem _ (ih pl it h)
    · rw [if_neg hmem] at h
      by_cases hpass : passCheck off lookback hd = true
      · rw [if_pos hpass] at h
        simp only [List.mem_cons] at h ⊢
        rcases h with h | h
        · exact Or.inl h
        · exact Or.inr (ih _ it h)
      · rw [if_neg hpass] at h
        exact List.mem_cons_of_mem _ (ih pl it h)

theorem selectAux_fst_link_not_mem (off : Int) (lookback : Option PyDT) :
    ∀ (master : List Item) (pl : List String) (it : Item),
      it ∈ (selectAux off lookback pl master).1 → it.link ∉ pl := by
  intro master
  induction master with
  | nil => intro pl it h; simp [selectAux] at h
  | cons hd rest ih =>
    intro pl it h
    simp only [selectAux] at h
    by_cases hmem : hd.link ∈ pl
    · rw [if_pos hmem] at h
      exact ih pl it h
    · rw [if_neg hmem] at h
      by_cases hpass : passCheck off lookback hd = true
      · rw [if_pos hpass] at h
        simp only [List.mem_cons] at h
        rcases h with h | h
        · exact h ▸ hmem
        · exact fun hc => ih _ it h (List.mem_cons_of_mem _ hc)
      · rw [if_neg hpass] at h
        exact ih pl it h

theorem selectAux_links_nodup (off : Int) (lookback : Option PyDT) :
    ∀ (master : List Item) (pl : List String),
      ((selectAux off lookback pl master).1.map Item.link).Nodup := by
  intro master
  induction master with
  | nil => intro pl; simp [selectAux]
  | cons hd rest ih =>
    intro pl
    simp only [selectAux]
    by_cases hmem : hd.link ∈ pl
    · rw [if_pos hmem]
      exact ih pl
    · rw [if_neg hmem]
      by_cases hpass : passCheck off lookback hd = true
      · rw [if_pos hpass]
        simp only [List.map_cons, List.nodup_cons]
        refine ⟨?_, ih _⟩
        intro hc
        rcases List.mem_map.1 hc with ⟨it, hit, hlink⟩
        exact selectAux_fst_link_not_mem off lookback rest (hd.link :: pl) it hit
          (hlink ▸ List.mem_cons_self _ _)
      · rw [if_neg hpass]
        exact ih pl

theorem selectAux_pl_mem_snd (off : Int) (lookback : Option PyDT) :
    ∀ (master : List Item) (pl : List String) (l : String),
      l ∈ pl → l ∈ (selectAux off lookback pl master).2 := by
  intro master
  induction master with
  | nil => intro pl l h; simpa [selectAux] using h
  | cons hd rest ih =>
    intro pl l h
    simp only [selectAux]
    by_cases hmem : hd.link ∈ pl
    · rw [if_pos hmem]
      exact ih pl l h
    · rw [if_neg hmem]
      by_cases hpass : passCheck off lookback hd = true
      · rw [if_pos hpass]
        exact ih _ l (List.mem_cons_of_mem _ h)
      · rw [if_neg hpass]
        exact ih pl l h

theorem selectAux_sel_link_mem_snd (off : Int) (lookback : Option PyDT) :
    ∀ (master : List Item) (pl : List String) (it : Item),
      it ∈ (selectAux off lookback pl master).1 →
      it.link ∈ (selectAux off lookback pl master).2 := by
  intro master
  induction master with
  | nil => intro pl it h; simp [selectAux] at h
  | cons hd rest ih =>
    intro pl it h
    simp only [selectAux] at h ⊢
    by_cases hmem : hd.link ∈ pl
    · rw [if_pos hmem] at h ⊢
      exact ih pl it h
    · rw [if_neg hmem] at h ⊢
      by_cases hpass : passCheck off lookback hd = true
      · rw [if_pos hpass] at h ⊢
        simp only [List.mem_cons] at h
        rcases h with h | h
        · exact selectAux_pl_mem_snd off lookback rest _ _ (h ▸ List.mem_cons_self _ _)
        · exact ih _ it h
      · rw [if_neg hpass] at h ⊢
        exact ih pl it h

theorem selectAux_mem_iff (off : Int) (lookback : Option PyDT) :
    ∀ (master : List Item) (pl : List String),
      (master.map Item.link).Nodup →
      ∀ it : Item, it ∈ (selectAux off lookback pl master).1 ↔
        (it ∈ master ∧ it.link ∉ pl ∧ passLookback lookback it) := by
  intro master
  induction master with
  | nil => intro pl _ it; simp [selectAux]
  | cons hd rest ih =>
    intro pl hnd it
    rw [List.map_cons, List.nodup_cons] at hnd
    simp only [selectAux]
    by_cases hmem : hd.link ∈ pl
    · rw [if_pos hmem, ih pl hnd.2 it]
      constructor
      · rintro ⟨h1, h2, h3⟩
        exact ⟨List.mem_cons_of_mem _ h1, h2, h3⟩
      · rintro ⟨h1, h2, h3⟩
        rcases List.mem_cons.1 h1 with rfl | h1'
        · exact absurd hmem h2
        · exact ⟨h1', h2, h3⟩
    · rw [if_neg hmem]
      by_cases hpass : passCheck off lookback hd = true
      · rw [if_pos hpass]
        simp only [List.mem_cons]
        constructor
        · rintro (rfl | h)
          · exact ⟨Or.inl rfl, hmem, (passCheck_iff off lookback it).1 hpass⟩
          · have hres := (ih (hd.link :: pl) hnd.2 it).1 h
            exact ⟨Or.inr hres.1,
              fun hc => hres.2.1 (List.mem_cons_of_mem _ hc), hres.2.2⟩
        · rintro ⟨rfl | h1, h2, h3⟩
          · exact Or.inl rfl
          · refine Or.inr ((ih (hd.link :: pl) hnd.2 it).2 ⟨h1, ?_, h3⟩)
            intro hc
            rcases List.mem_cons.1 hc with he | hc'
            · exact hnd.1 (he ▸ List.mem_map_of_mem Item.link h1)
            · exact h2 hc'
      · rw [if_neg hpass, ih pl hnd.2 it]
        constructor
        · rintro ⟨h1, h2, h3⟩
          exact ⟨List.mem_cons_of_mem _ h1, h2, h3⟩
        · rintro ⟨h1, h2, h3⟩
          rcases List.mem_cons.1 h1 with rfl | h1'
          · exact absurd ((passCheck_iff off lookback it).2 h3) hpass
          · exact ⟨h1', h2, h3⟩

/-! Reduction lemmas for `update_daily`, and Python `max`. -/

theorem update_daily_eq_of_empty (off : Int) (now : PyDT) (wm : Watermark)
    (master : List Item) (pl : List String)
    (hsel : selectNew off wm master = ([], pl)) :
    update_daily off now wm master =
      ⟨[placeholderItem now], [], save_last_seen now pl master⟩ := by
  rw [update_daily, hsel]

theorem update_daily_eq_of_sel (off : Int) (now : PyDT) (wm : Watermark)
    (master : List Item) (n0 : Item) (rest : List Item) (pl : List String)
    (hsel : selectNew off wm master = (n0 :: rest, pl)) :
    update_daily off now wm master =
      ⟨(sortDesc (n0 :: rest)).take 100, (sortDesc (n0 :: rest)).drop 100,
        save_last_seen
          (pyMaxDT ((sortDesc (n0 :: rest)).headD n0).pubDate
            ((sortDesc (n0 :: rest)).tail.map Item.pubDate)) pl master⟩ := by
  rw [update_daily, hsel]

theorem pyMaxDT_mem (l : List PyDT) : ∀ acc : PyDT,
    pyMaxDT acc l = acc ∨ pyMaxDT acc l ∈ l := by
  induction l with
  | nil => intro acc; exact Or.inl rfl
  | cons d ds ih =>
    intro acc
    simp only [pyMaxDT]
    rcases ih (if acc.instant < d.instant then d else acc) with h | h
    · rw [h]
      by_cases hc : acc.instant < d.instant
      · rw [if_pos hc]
        exact Or.inr (List.mem_cons_self _ _)
      · rw [if_neg hc]
        exact Or.inl rfl
    · exact Or.inr (List.mem_cons_of_mem _ h)

theorem pyMaxDT_ge (l : List PyDT) : ∀ acc : PyDT,
    acc.instant ≤ (pyMaxDT acc l).instant ∧
    ∀ d ∈ l, d.instant ≤ (pyMaxDT acc l).instant := by
  induction l with
  | nil => intro acc; exact ⟨le_rfl, by simp⟩
  | cons d ds ih =>
    intro acc
    simp only [pyMaxDT]
    obtain ⟨h1, h2⟩ := ih (if acc.instant < d.instant then d else acc)
    constructor
    · refine le_trans ?_ h1
      by_cases hc : acc.instant < d.instant
      · rw [if_pos hc]
        exact le_of_lt hc
      · rw [if_neg hc]
    · intro e he
      rcases List.mem_cons.1 he with rfl | hm
      · refine le_trans ?_ h1
        by_cases hc : acc.instant < e.instant
        · rw [if_pos hc]
        · rw [if_neg hc]
          exact not_lt.1 hc
      · exact h2 e hm

/-! Claims C5, C7, C10 about the digest windowing. -/

/-- Claim C5 (confirmed): under the lookback + processed-links policy, with
the archive's link-uniqueness invariant (links are unique within the archive
store), a record is selected as new iff its link is not in the processed set
and (there is no last-seen timestamp, hence no cutoff, or its pubDate is
strictly after the cutoff `last_seen - LOOKBACK_HOURS`).  In particular a
record whose pubDate lies before the last-seen timestamp but within the
lookback window, with an unprocessed link, is included. -/
theorem lookback_selection_spec (off : Int) (wm : Watermark) (master : List Item)
    (hnd : (master.map Item.link).Nodup) (it : Item) :
    it ∈ (selectNew off wm master).1 ↔
      (it ∈ master ∧ it.link ∉ wm.processed ∧
        (match wm.last_seen with
         | none => True
         | some ls => (ls.subSec (LOOKBACK_HOURS * 3600)).instant < it.pubDate.instant)) := by
  rw [selectNew, selectAux_mem_iff off (lookbackOf wm) master wm.processed hnd it]
  cases hls : wm.last_seen with
  | none => simp [lookbackOf, hls, passLookback]
  | some ls => simp [lookbackOf, hls, passLookback]

/-- The scenario record: published one hour before the last-seen watermark
(instant 32400 vs 36000), link not yet processed. -/
def lateItem : Item := ⟨"late title", "http://example.test/late", "", ⟨32400, some 0⟩, ""⟩

/-- Watermark whose last-seen instant is 36000, with no processed links. -/
def wmScenario : Watermark := ⟨some ⟨36000, some 0⟩, []⟩

/-- Witness for `lookback_selection_spec`: the scenario record IS selected
even though its pubDate precedes the last-seen timestamp, because it is
within the 48-hour lookback window. -/
theorem lookback_selection_witness :
    lateItem ∈ (selectNew BD_OFFSET wmScenario [lateItem]).1 := by
  have h := lookback_selection_spec BD_OFFSET wmScenario [lateItem] (by decide) lateItem
  exact h.mpr ⟨List.mem_cons_self _ _, by decide,
    show ((⟨36000, some 0⟩ : PyDT).subSec (LOOKBACK_HOURS * 3600)).instant
        < lateItem.pubDate.instant by decide⟩

/-- Claim C7 (confirmed): when the computed new set is empty, the run emits
exactly one synthetic placeholder record with pubDate `now` as the primary
output, an empty secondary output, and still advances the persisted
watermark's last-seen to `now`. -/
theorem placeholder_on_empty (off : Int) (now : PyDT) (wm : Watermark)
    (master : List Item) (h : (selectNew off wm master).1 = []) :
    (update_daily off now wm master).primary = [placeholderItem now] ∧
    (update_daily off now wm master).secondary = [] ∧
    (update_daily off now wm master).saved.last_seen = some now := by
  have hsel : selectNew off wm master = ([], (selectNew off wm master).2) := by
    rw [← h]
  rw [update_daily_eq_of_empty off now wm master _ hsel]
  exact ⟨rfl, rfl, rfl⟩

/-- The empty watermark state (`load_last_seen` on missing file). -/
def wmEmpty : Watermark := ⟨none, []⟩

/-- A concrete aware-UTC datetime for witnesses. -/
def epochDT : PyDT := ⟨0, some 0⟩

/-- Witness for `placeholder_on_empty` on an empty archive and fresh
watermark. -/
theorem placeholder_on_empty_witness :
    (update_daily BD_OFFSET epochDT wmEmpty []).primary = [placeholderItem epochDT] ∧
    (update_daily BD_OFFSET epochDT wmEmpty []).secondary = [] ∧
    (update_daily BD_OFFSET epochDT wmEmpty []).saved.last_seen = some epochDT :=
  placeholder_on_empty BD_OFFSET epochDT wmEmpty [] (by decide)

/-- Claim C10 (confirmed): the new-record selection is independent of the
display timezone offset: `astimezone` preserves the instant and aware
datetimes compare by instant, so two runs differing only in the offset
select exactly the same records (and produce the same processed set). -/
theorem selectNew_offset_irrelevant (o1 o2 : Int) (wm : Watermark) (master : List Item) :
    selectNew o1 wm master = selectNew o2 wm master :=
  selectAux_offset_eq o1 o2 (lookbackOf wm) master wm.processed

/-! Claim C6: advancing the watermark. -/

/-- Claim C6 (confirmed): after a run that emitted at least one new record,
the persisted watermark's last-seen equals the maximum pubDate over all newly
emitted records (across both batches, not per batch: it is both attained by a
new record and an upper bound for every emitted record); every newly emitted
link has been added to the processed set the save starts from; and the
persisted set keeps exactly those processed links still borne by an archive
item whose pubDate is within `LINK_RETENTION_DAYS` of the new last-seen. -/
theorem watermark_advance_spec (off : Int) (now : PyDT) (wm : Watermark)
    (master : List Item) (hne : (selectNew off wm master).1 ≠ []) :
    ∃ last_dt : PyDT,
      (update_daily off now wm master).saved.last_seen = some last_dt ∧
      last_dt ∈ (selectNew off wm master).1.map Item.pubDate ∧
      (∀ it ∈ (update_daily off now wm master).primary
          ++ (update_daily off now wm master).secondary,
        it.pubDate.instant ≤ last_dt.instant) ∧
      (∀ it ∈ (selectNew off wm master).1, it.link ∈ (selectNew off wm master).2) ∧
      (∀ l : String, l ∈ (update_daily off now wm master).saved.processed ↔
        (l ∈ (selectNew off wm master).2 ∧
          ∃ it ∈ master, it.link = l ∧
            (last_dt.subSec (LINK_RETENTION_DAYS * 86400)).instant
              < it.pubDate.instant)) := by
  cases hsel1 : (selectNew off wm master).1 with
  | nil => exact absurd hsel1 hne
  | cons n0 rest =>
    have hsel : selectNew off wm master = (n0 :: rest, (selectNew off wm master).2) := by
      rw [← hsel1]
    have hout := update_daily_eq_of_sel off now wm master n0 rest _ hsel
    have hperm : (sortDesc (n0 :: rest)).Perm (n0 :: rest) := List.mergeSort_perm _ _
    have hslen : (sortDesc (n0 :: rest)).length = rest.length + 1 := by
      rw [sortDesc, List.length_mergeSort, List.length_cons]
    cases hsort : sortDesc (n0 :: rest) with
    | nil => rw [hsort] at hslen; simp at hslen
    | cons s0 srest =>
      refine ⟨pyMaxDT s0.pubDate (srest.map Item.pubDate), ?_, ?_, ?_, ?_, ?_⟩
      · rw [hout, hsort]
        rfl
      · have hm := pyMaxDT_mem (srest.map Item.pubDate) s0.pubDate
        have hmem : pyMaxDT s0.pubDate (srest.map Item.pubDate)
            ∈ (s0 :: srest).map Item.pubDate := by
          rcases hm with h | h
          · rw [List.map_cons, h]
            exact List.mem_cons_self _ _
          · rw [List.map_cons]
            exact List.mem_cons_of_mem _ h
        have := (hsort ▸ hperm).map Item.pubDate
        exact this.mem_iff.1 hmem
      · intro it hit
        rw [hout] at hit
        simp only [List.take_append_drop] at hit
        rw [hsort] at hit
        obtain ⟨h1, h2⟩ := pyMaxDT_ge (srest.map Item.pubDate) s0.pubDate
        rcases List.mem_cons.1 hit with rfl | hm
        · exact h1
        · exact h2 _ (List.mem_map_of_mem Item.pubDate hm)
      · intro it hit
        have hit' : it ∈ (selectNew off wm master).1 := by
          rw [hsel1]
          exact hit
        exact selectAux_sel_link_mem_snd off (lookbackOf wm) master wm.processed it hit'
      · intro l
        rw [hout, hsort]
        show l ∈ (save_last_seen (pyMaxDT s0.pubDate (srest.map Item.pubDate))
          (selectNew off wm master).2 master).processed ↔ _
        rw [save_last_seen]
        simp only [List.mem_filter, List.any_eq_true, Bool.and_eq_true, beq_iff_eq,
          decide_eq_true_eq]

/-- A single-record archive for digest witnesses. -/
def soloItem : Item := ⟨"solo title", "http://example.test/solo", "", ⟨500, some 0⟩, ""⟩

/-- Witness for `watermark_advance_spec` on a one-record archive and fresh
watermark. -/
theorem watermark_advance_witness :
    ∃ last_dt : PyDT,
      (update_daily BD_OFFSET epochDT wmEmpty [soloItem]).saved.last_seen = some last_dt ∧
      last_dt ∈ (selectNew BD_OFFSET wmEmpty [soloItem]).1.map Item.pubDate ∧
      (∀ it ∈ (update_daily BD_OFFSET epochDT wmEmpty [soloItem]).primary
          ++ (update_daily BD_OFFSET epochDT wmEmpty [soloItem]).secondary,
        it.pubDate.instant ≤ last_dt.instant) ∧
      (∀ it ∈ (selectNew BD_OFFSET wmEmpty [soloItem]).1,
        it.link ∈ (selectNew BD_OFFSET wmEmpty [soloItem]).2) ∧
      (∀ l : String,
        l ∈ (update_daily BD_OFFSET epochDT wmEmpty [soloItem]).saved.processed ↔
        (l ∈ (selectNew BD_OFFSET wmEmpty [soloItem]).2 ∧
          ∃ it ∈ [soloItem], it.link = l ∧
            (last_dt.subSec (LINK_RETENTION_DAYS * 86400)).instant
              < it.pubDate.instant)) :=
  watermark_advance_spec BD_OFFSET epochDT wmEmpty [soloItem] (by decide)

/-! Claim C2: batch partitioning of the digest. -/

/-- Claim C2 amended: in a run with new records, the primary batch holds at
most 100 records; the two emitted batches together are a permutation of the
full new set (so the union of the batches' links is exactly the new set's
links); the link lists of the two batches are jointly duplicate-free (no
link appears in more than one batch, nor twice in one); and the overflow
batch is explicitly emitted empty when the new set fits in one batch. -/
theorem daily_batches_spec (off : Int) (now : PyDT) (wm : Watermark)
    (master : List Item) (hne : (selectNew off wm master).1 ≠ []) :
    (update_daily off now wm master).primary.length ≤ 100 ∧
    ((update_daily off now wm master).primary
        ++ (update_daily off now wm master).secondary).Perm
      (selectNew off wm master).1 ∧
    (((update_daily off now wm master).primary
        ++ (update_daily off now wm master).secondary).map Item.link).Nodup ∧
    ((selectNew off wm master).1.length ≤ 100 →
      (update_daily off now wm master).secondary = []) := by
  cases hsel1 : (selectNew off wm master).1 with
  | nil => exact absurd hsel1 hne
  | cons n0 rest =>
    have hsel : selectNew off wm master = (n0 :: rest, (selectNew off wm master).2) := by
      rw [← hsel1]
    have hout := update_daily_eq_of_sel off now wm master n0 rest _ hsel
    have hperm : (sortDesc (n0 :: rest)).Perm (n0 :: rest) := List.mergeSort_perm _ _
    refine ⟨?_, ?_, ?_, ?_⟩
    · rw [hout]
      show ((sortDesc (n0 :: rest)).take 100).length ≤ 100
      rw [List.length_take]
      exact min_le_left _ _
    · rw [hout]
      show ((sortDesc (n0 :: rest)).take 100 ++ (sortDesc (n0 :: rest)).drop 100).Perm
        (n0 :: rest)
      rw [List.take_append_drop]
      exact hperm
    · rw [hout]
      show (((sortDesc (n0 :: rest)).take 100
          ++ (sortDesc (n0 :: rest)).drop 100).map Item.link).Nodup
      rw [List.take_append_drop]
      have hnd : ((selectNew off wm master).1.map Item.link).Nodup :=
        selectAux_links_nodup off (lookbackOf wm) master wm.processed
      rw [hsel1] at hnd
      exact (hperm.symm.map Item.link).nodup hnd
    · intro hlen
      rw [List.length_cons] at hlen
      rw [hout]
      show (sortDesc (n0 :: rest)).drop 100 = []
      apply List.drop_eq_nil_of_le
      rw [sortDesc, List.length_mergeSort, List.length_cons]
      exact hlen

/-- Witness for `daily_batches_spec` on a one-record archive. -/
theorem daily_batches_witness :
    (update_daily BD_OFFSET epochDT wmEmpty [soloItem]).primary.length ≤ 100 ∧
    ((update_daily BD_OFFSET epochDT wmEmpty [soloItem]).primary
        ++ (update_daily BD_OFFSET epochDT wmEmpty [soloItem]).secondary).Perm
      (selectNew BD_OFFSET wmEmpty [soloItem]).1 ∧
    (((update_daily BD_OFFSET epochDT wmEmpty [soloItem]).primary
        ++ (update_daily BD_OFFSET epochDT wmEmpty [soloItem]).secondary).map
        Item.link).Nodup ∧
    ((selectNew BD_OFFSET wmEmpty [soloItem]).1.length ≤ 100 →
      (update_daily BD_OFFSET epochDT wmEmpty [soloItem]).secondary = []) :=
  daily_batches_spec BD_OFFSET epochDT wmEmpty [soloItem] (by decide)

/-! Claim C2 counterexample: the overflow batch is not capped. -/

/-- When there is no lookback cutoff and the archive's links are duplicate
free and unprocessed, the selection keeps every archive record. -/
theorem selectAux_none_all (off : Int) :
    ∀ (master : List Item) (pl : List String),
      (master.map Item.link).Nodup →
      (∀ it ∈ master, it.link ∉ pl) →
      (selectAux off none pl master).1 = master := by
  intro master
  induction master with
  | nil => intro pl _ _; rfl
  | cons hd rest ih =>
    intro pl hnd hpl
    rw [List.map_cons, List.nodup_cons] at hnd
    have hmem : hd.link ∉ pl := hpl hd (List.mem_cons_self _ _)
    simp only [selectAux, if_neg hmem]
    rw [if_pos (show passCheck off none hd = true from rfl)]
    show hd :: (selectAux off none (hd.link :: pl) rest).1 = hd :: rest
    congr 1
    apply ih (hd.link :: pl) hnd.2
    intro it hit
    intro hc
    rcases List.mem_cons.1 hc with he | hc'
    · exact hnd.1 (he ▸ List.mem_map_of_mem Item.link hit)
    · exact hpl it (List.mem_cons_of_mem _ hit) hc'

/-- For a nonempty selection, the overflow batch holds everything past the
first 100 sorted records: its length is the size of the new set minus 100. -/
theorem update_daily_secondary_length (off : Int) (now : PyDT) (wm : Watermark)
    (master : List Item) (hne : (selectNew off wm master).1 ≠ []) :
    (update_daily off now wm master).secondary.length
      = (selectNew off wm master).1.length - 100 := by
  cases hsel1 : (selectNew off wm master).1 with
  | nil => exact absurd hsel1 hne
  | cons n0 rest =>
    have hsel : selectNew off wm master = (n0 :: rest, (selectNew off wm master).2) := by
      rw [← hsel1]
    rw [update_daily_eq_of_sel off now wm master n0 rest _ hsel]
    show ((sortDesc (n0 :: rest)).drop 100).length = (n0 :: rest).length
      - 100
    rw [List.length_drop, sortDesc, List.length_mergeSort]

/-- Pairwise-distinct link strings, distinguished by length. -/
def mkLink (n : Nat) : String := ⟨List.replicate (n + 1) 'a'⟩

/-- The n-th archive record of the counterexample archive. -/
def mkDigestItem (n : Nat) : Item := ⟨"t", mkLink n, "", ⟨0, some 0⟩, ""⟩

/-- An archive of 201 records with pairwise-distinct links. -/
def master201 : List Item := (List.range 201).map mkDigestItem

theorem master201_links_nodup : (master201.map Item.link).Nodup := by
  rw [master201, List.map_map]
  refine List.Nodup.map ?_ (List.nodup_range 201)
  intro a b hab
  have hdata : (mkLink a).data = (mkLink b).data := by
    have : (Item.link ∘ mkDigestItem) a = (Item.link ∘ mkDigestItem) b := hab
    exact congrArg String.data this
  simp only [mkLink] at hdata
  have hlen := congrArg List.length hdata
  simp only [List.length_replicate] at hlen
  omega

/-- Claim C2 counterexample: with a fresh watermark and an archive of 201
records with distinct links, all 201 are new; the primary batch takes 100 and
the single overflow batch receives the remaining 101 records — exceeding the
claimed per-batch cap of 100. -/
theorem second_batch_exceeds_cap :
    100 < (update_daily BD_OFFSET epochDT wmEmpty master201).secondary.length := by
  have hsel1 : (selectNew BD_OFFSET wmEmpty master201).1 = master201 :=
    selectAux_none_all BD_OFFSET master201 [] master201_links_nodup (by simp)
  have hne : (selectNew BD_OFFSET wmEmpty master201).1 ≠ [] := by
    rw [hsel1, master201]
    simp
  rw [update_daily_secondary_length BD_OFFSET epochDT wmEmpty master201 hne, hsel1,
    master201, List.length_map, List.length_range]
  omega

/-! Claim C8: the date normalizer `parse_date_from_text`. -/

/-- The fixed alternate-format list of lines 39-43, tried in order. -/
def pyFormats : List String :=
  ["%b %d, %Y %I:%M %p", "%d %b %Y %H:%M:%S", "%Y-%m-%d %H:%M:%S"]

/-- Python `dt.replace(tzinfo=timezone.utc)` when naive, then
`dt.astimezone(timezone.utc)` (lines 32-34). -/
def utcNormalize (d : PyDT) : PyDT :=
  (match d.tz with
   | none => ({ naive := d.naive, tz := some 0 } : PyDT)
   | some _ => d).astimezone 0

theorem utcNormalize_instant (d : PyDT) : (utcNormalize d).instant = d.instant := by
  cases d with
  | mk n tz =>
    cases tz with
    | none =>
      simp only [utcNormalize, PyDT.instant_astimezone]
      simp [PyDT.instant]
    | some o =>
      simp only [utcNormalize, PyDT.instant_astimezone]

/-- The format loop of lines 45-50: first format that parses wins.  The
`strp` parameter stands for `datetime.strptime` (standard library, external
to this repository), returning the parsed naive wall clock or failing; these
formats carry no timezone directive, so a success is naive. -/
def tryFormats (strp : String → String → Option Int) (text : String) :
    List String → Option Int
  | [] => none
  | f :: fs =>
    match strp text f with
    | some v => some v
    | none => tryFormats strp text fs

/-- Model of `parse_date_from_text` (lines 24-52).  The stdlib parsers are
parameters: `rfc` stands for `email.utils.parsedate_to_datetime` (aware or
naive result, or failure), `strp` for `datetime.strptime`; `now` is
`datetime.now(timezone.utc)`.  Policy: falsy (empty) text gives `now`; else
a successful RFC-2822 parse, naive treated as UTC, converted to UTC; else
the alternate formats in order, results treated as already UTC
(`dt.replace(tzinfo=timezone.utc)`); else `now`. -/
def parse_date_from_text (rfc : String → Option PyDT)
    (strp : String → String → Option Int) (now : PyDT) (text : String) : PyDT :=
  if text = "" then now
  else
    match rfc text with
    | some dt => utcNormalize dt
    | none =>
      match tryFormats strp text pyFormats with
      | some v => ⟨v, some 0⟩
      | none => now

theorem tryFormats_nil (strp : String → String → Option Int) (text : String) :
    tryFormats strp text [] = none := rfl

theorem tryFormats_eq_none (strp : String → String → Option Int) (text : String) :
    ∀ fs : List String, (∀ f ∈ fs, strp text f = none) →
      tryFormats strp text fs = none := by
  intro fs
  induction fs with
  | nil => intro _; rfl
  | cons f rest ih =>
    intro h
    simp only [tryFormats, h f (List.mem_cons_self _ _)]
    exact ih fun g hg => h g (List.mem_cons_of_mem _ hg)

/-- Claim C8 (confirmed): the normalizer is a total function returning a
usable UTC timestamp on every input (the result always carries the UTC
offset), and it follows the fixed policy order: (a) empty text gives `now`;
(b) otherwise a successful RFC-2822 parse wins, with naive results treated
as UTC and the result converted to UTC, preserving the denoted instant;
(c) otherwise the three alternate formats are tried in priority order, a
success being treated as already UTC; (d) if every attempt fails, `now`. -/
theorem parse_date_policy (rfc : String → Option PyDT)
    (strp : String → String → Option Int) (now : PyDT) (text : String)
    (hnow : now.tz = some 0) :
    (parse_date_from_text rfc strp now text).tz = some 0 ∧
    (text = "" → parse_date_from_text rfc strp now text = now) ∧
    (∀ dt, text ≠ "" → rfc text = some dt →
      parse_date_from_text rfc strp now text = utcNormalize dt ∧
      (utcNormalize dt).instant = dt.instant) ∧
    (∀ v, text ≠ "" → rfc text = none →
      strp text "%b %d, %Y %I:%M %p" = some v →
      parse_date_from_text rfc strp now text = ⟨v, some 0⟩) ∧
    (∀ v, text ≠ "" → rfc text = none →
      strp text "%b %d, %Y %I:%M %p" = none →
      strp text "%d %b %Y %H:%M:%S" = some v →
      parse_date_from_text rfc strp now text = ⟨v, some 0⟩) ∧
    (∀ v, text ≠ "" → rfc text = none →
      strp text "%b %d, %Y %I:%M %p" = none →
      strp text "%d %b %Y %H:%M:%S" = none →
      strp text "%Y-%m-%d %H:%M:%S" = some v →
      parse_date_from_text rfc strp now text = ⟨v, some 0⟩) ∧
    ((text = "" → False) → rfc text = none →
      (∀ f ∈ pyFormats, strp text f = none) →
      parse_date_from_text rfc strp now text = now) := by
  have hutc : ∀ d : PyDT, (utcNormalize d).tz = some 0 := by
    intro d
    rfl
  refine ⟨?_, ?_, ?_, ?_, ?_, ?_, ?_⟩
  · rw [parse_date_from_text]
    by_cases ht : text = ""
    · rw [if_pos ht]
      exact hnow
    · rw [if_neg ht]
      cases hr : rfc text with
      | some dt => exact hutc dt
      | none =>
        cases htf : tryFormats strp text pyFormats with
        | some v => rfl
        | none => exact hnow
  · intro ht
    rw [parse_date_from_text, if_pos ht]
  · intro dt ht hr
    exact ⟨by rw [parse_date_from_text, if_neg ht, hr], utcNormalize_instant dt⟩
  · intro v ht hr h1
    have htf : tryFormats strp text pyFormats = some v := by
      show tryFormats strp text
        ["%b %d, %Y %I:%M %p", "%d %b %Y %H:%M:%S", "%Y-%m-%d %H:%M:%S"] = some v
      simp only [tryFormats, h1]
    rw [parse_date_from_text, if_neg ht, hr, htf]
  · intro v ht hr h1 h2
    have htf : tryFormats strp text pyFormats = some v := by
      show tryFormats strp text
        ["%b %d, %Y %I:%M %p", "%d %b %Y %H:%M:%S", "%Y-%m-%d %H:%M:%S"] = some v
      simp only [tryFormats, h1, h2]
    rw [parse_date_from_text, if_neg ht, hr, htf]
  · intro v ht hr h1 h2 h3
    have htf : tryFormats strp text pyFormats = some v := by
      show tryFormats strp text
        ["%b %d, %Y %I:%M %p", "%d %b %Y %H:%M:%S", "%Y-%m-%d %H:%M:%S"] = some v
      simp only [tryFormats, h1, h2, h3]
    rw [parse_date_from_text, if_neg ht, hr, htf]
  · intro ht hr hall
    have htf : tryFormats strp text pyFormats = none :=
      tryFormats_eq_none strp text pyFormats hall
    rw [parse_date_from_text, if_neg ht, hr, htf]

/-- Witness for `parse_date_policy`: parsers that always fail, a UTC `now`,
and the nonempty text `"x"`; the hypothesis that `now` is aware-UTC is
discharged by computation. -/
theorem parse_date_policy_witness :
    (parse_date_from_text (fun _ => none) (fun _ _ => none) epochDT "x").tz = some 0 ∧
    (("x" : String) = "" → parse_date_from_text (fun _ => none) (fun _ _ => none)
      epochDT "x" = epochDT) ∧
    (∀ dt, ("x" : String) ≠ "" → (none : Option PyDT) = some dt →
      parse_date_from_text (fun _ => none) (fun _ _ => none) epochDT "x"
        = utcNormalize dt ∧
      (utcNormalize dt).instant = dt.instant) ∧
    (∀ v : Int, ("x" : String) ≠ "" → (none : Option PyDT) = none →
      (none : Option Int) = some v →
      parse_date_from_text (fun _ => none) (fun _ _ => none) epochDT "x"
        = ⟨v, some 0⟩) ∧
    (∀ v : Int, ("x" : String) ≠ "" → (none : Option PyDT) = none →
      (none : Option Int) = none → (none : Option Int) = some v →
      parse_date_from_text (fun _ => none) (fun _ _ => none) epochDT "x"
        = ⟨v, some 0⟩) ∧
    (∀ v : Int, ("x" : String) ≠ "" → (none : Option PyDT) = none →
      (none : Option Int) = none → (none : Option Int) = none →
      (none : Option Int) = some v →
      parse_date_from_text (fun _ => none) (fun _ _ => none) epochDT "x"
        = ⟨v, some 0⟩) ∧
    ((("x" : String) = "" → False) → (none : Option PyDT) = none →
      (∀ f ∈ pyFormats, (none : Option Int) = none) →
      parse_date_from_text (fun _ => none) (fun _ _ => none) epochDT "x" = epochDT) :=
  parse_date_policy (fun _ => none) (fun _ _ => none) epochDT "x" rfl

/-! Claim C9: persistence atomicity. -/

/-- First `k` characters of a string: a partially flushed write. -/
def strTake (k : Nat) (s : String) : String := ⟨s.data.take k⟩

/-- The durable contents observable if the process is interrupted during the
persistence step `open(path, "w"); f.write(content)` used by `write_rss`
(lines 115-117) and `save_last_seen` (lines 145-149): before the `open`, the
prior contents (`none` = no file); `open(..., "w")` truncates the file in
place; an interrupted write leaves some prefix of the new content.  There is
no write-to-temp-then-replace step in the source. -/
def overwriteCrashStates (old : Option String) (new : String) :
    List (Option String) :=
  old :: (List.range (new.length + 1)).map (fun k => some (strTake k new))

/-- Atomicity in the claim's sense: every crash state is either the prior
contents or the full new contents. -/
def AtomicPersist (old : Option String) (new : String) : Prop :=
  ∀ s ∈ overwriteCrashStates old new, s = old ∨ s = some new

/-- Claim C9 counterexample: the direct-overwrite persistence of `write_rss`
and `save_last_seen` is not atomic — interrupting right after the truncating
`open` leaves an empty file, which is neither the prior valid contents nor
the new contents. -/
theorem persist_not_atomic :
    ¬ AtomicPersist (some "<rss>prior</rss>") "<rss>fresh</rss>" := by
  intro h
  have h0 := h (some "") (by decide)
  rcases h0 with h0 | h0 <;> exact absurd h0 (by decide)

/-- Claim C9 amended: a crash during a persistence step leaves either the
prior contents or some prefix of the new content (possibly the empty file) —
a direct overwrite, not an atomic replace. -/
theorem persist_overwrite_spec (old : Option String) (new : String)
    (s : Option String) (h : s ∈ overwriteCrashStates old new) :
    s = old ∨ ∃ k, k ≤ new.length ∧ s = some (strTake k new) := by
  rw [overwriteCrashStates] at h
  rcases List.mem_cons.1 h with h | h
  · exact Or.inl h
  · rcases List.mem_map.1 h with ⟨k, hk, rfl⟩
    exact Or.inr ⟨k, Nat.lt_succ_iff.1 (List.mem_range.1 hk), rfl⟩

/-- Witness for `persist_overwrite_spec` at a concrete interrupted state. -/
theorem persist_overwrite_witness :
    some "<r" = some "old contents" ∨
    ∃ k, k ≤ ("<rss>" : String).length ∧ some "<r" = some (strTake k "<rss>") :=
  persist_overwrite_spec (some "old contents") "<rss>" (some "<r") (by decide)
